import Mathlib

/-!
# Verification of the subject-detection and square-cropping pipeline

Shallow embedding of the `ImageProcessor` class (Sobel edge detection,
sliding-window region selection, square cropping, temp-write-then-rename).

Modelling conventions, used throughout:

* JavaScript IEEE-754 double arithmetic is modelled by exact rational
  arithmetic over `ℚ` wherever the double result provably agrees with the
  exact value: the products the code floors with `0.1`, `0.4` and `0.8`
  use stored doubles slightly above the exact decimals, so the rounded
  product is the exact product or the next double up and its floor equals
  the exact floor; `1 + 2 * 0.1` evaluates to the double nearest `1.2`,
  whose deficit is below half an ulp in every binade, so the floors of its
  products also equal the exact ones.  The fallback size
  `min(w, h) * 0.7` does NOT agree with exact arithmetic (in doubles
  `90 * 0.7 = 62.99999999999999`, whose floor is `62`, not `63`), so the
  fallback is modelled with explicit double rounding: `roundToDouble` is
  round-to-nearest, ties-to-even, on the 53-bit-significand grid, and
  `fl07` is the stored double nearest `0.7`.
* `Math.sqrt` is the exact real square root.  A window score has the form
  `q - 10 * sqrt r` with `q r : ℚ`; it is represented by the pair `(q, r)`
  (structure `Score`), and the two comparisons the code performs on scores
  (`score > maxScore`, `maxScore < 50`) are decided exactly by `gtSubSqrt`,
  which is proved to agree with the real-number comparison.
* Storing a double into a `Uint8Array` truncates it toward zero, so the
  stored Sobel magnitude `min(255, Math.sqrt (gx*gx + gy*gy))` is
  `min 255 (Nat.sqrt (gx^2 + gy^2))` (for a correctly rounded IEEE square
  root of an integer `m`, the floor of the result is exactly `Nat.sqrt m`).
* The `sharp` image library is an external collaborator: its decode,
  downscale, resize and encode steps enter the model as inputs or as
  oracle functions, and the `fit: cover` resize is modelled by its
  documented contract (output has exactly the requested dimensions).
* The filesystem is a map from paths to byte lists; `writeFileSync` and
  `renameSync` are modelled explicitly.
-/

namespace POSImage

/-- Bounding box record `{ x, y, width, height }` (a `Region`). -/
structure Rect where
  x : ℤ
  y : ℤ
  width : ℤ
  height : ℤ
deriving DecidableEq

/-- `TARGET_SIZE = 500`, the square output size. -/
def TARGET_SIZE : ℕ := 500

/-! ## Edge Map Builder (`detectEdges`) -/

/-- Sobel `Gx` kernel `[-1, 0, 1, -2, 0, 2, -1, 0, 1]`, row-major. -/
def sobelX : List ℤ := [-1, 0, 1, -2, 0, 2, -1, 0, 1]

/-- Sobel `Gy` kernel `[-1, -2, -1, 0, 0, 0, 1, 2, 1]`, row-major. -/
def sobelY : List ℤ := [-1, -2, -1, 0, 0, 0, 1, 2, 1]

/-- The 3x3 kernel loop of `detectEdges`: gradient component at pixel
`(x, y)` of a `w`-wide greyscale raster `img` (flat, one byte per pixel).
Kernel cell `k` corresponds to `ky = k / 3 - 1`, `kx = k % 3 - 1`;
only used at interior pixels (`1 ≤ x`, `1 ≤ y`). -/
def sobelG (kernel : List ℤ) (img : ℕ → ℕ) (w x y : ℕ) : ℤ :=
  ((List.range 9).map (fun k =>
    (img ((y + k / 3 - 1) * w + (x + k % 3 - 1)) : ℤ) * kernel.getD k 0)).sum

/-- `detectEdges(imageData, width, height)`: a `w*h` byte buffer, zero at the
border (first/last row and column), and at interior pixels the Sobel magnitude
`Math.min(255, Math.sqrt(gx*gx + gy*gy))` truncated to a byte by the
`Uint8Array` store. -/
def detectEdges (img : ℕ → ℕ) (w h : ℕ) : List ℕ :=
  (List.range (w * h)).map (fun i =>
    let x := i % w
    let y := i / w
    if 1 ≤ x ∧ x + 1 < w ∧ 1 ≤ y ∧ y + 1 < h then
      min 255 (Nat.sqrt ((sobelG sobelX img w x y) ^ 2 + (sobelG sobelY img w x y) ^ 2).toNat)
    else 0)

/-- Reading the edge buffer the way `findSubjectRegion` does
(`edges[wy * width + wx]`). -/
def edgeFun (img : ℕ → ℕ) (w h : ℕ) : ℕ → ℕ :=
  fun i => (detectEdges img w h).getD i 0

/-! ## Region Selector (`findSubjectRegion`) -/

/-- A window score `avgDensity * 0.4 + strongEdgeRatio * 255 * 0.4 +
centerWeight * 100 * 0.2` where `centerWeight = 1 - (dist / maxDist) * 0.5`.
Expanding `centerWeight`, the score is `base - 10 * Real.sqrt rad` with
`base` the rational part and `rad = (dist / maxDist)^2 = d2 / m2`.
The pair `(base, rad)` represents the score exactly. -/
structure Score where
  base : ℚ
  rad : ℚ
deriving DecidableEq

/-- Exact real value of a represented score. -/
noncomputable def scoreVal (s : Score) : ℝ :=
  (s.base : ℝ) - 10 * Real.sqrt (s.rad : ℝ)

/-- Decides `d > Real.sqrt r1 - Real.sqrt r2` for rationals with
`0 ≤ r1`, `0 ≤ r2`, by case analysis and squaring. -/
def gtSubSqrt (d r1 r2 : ℚ) : Bool :=
  if 0 ≤ d then
    if r1 - r2 - d ^ 2 < 0 then true
    else decide ((r1 - r2 - d ^ 2) ^ 2 < 4 * d ^ 2 * r2)
  else
    if r2 - r1 - d ^ 2 ≤ 0 then false
    else decide (4 * d ^ 2 * r1 < (r2 - r1 - d ^ 2) ^ 2)

/-- Decides `scoreVal a > scoreVal b`: the strict `>` the code uses on
scores (`score > maxScore`, and `50 > maxScore` for the threshold test). -/
def scoreGtB (a b : Score) : Bool :=
  gtSubSqrt ((a.base - b.base) / 10) a.rad b.rad

/-- Row (or column) index list of a window: `for (wy = y; wy < y + windowSize
&& wy < height; wy++)`. -/
def windowCells (a s bound : ℕ) : List ℕ :=
  List.range' a (min (a + s) bound - a)

/-- `edgeSum` of the window at `(x, y)` with side `s`. -/
def windowEdgeSum (edges : ℕ → ℕ) (w h s x y : ℕ) : ℕ :=
  ((windowCells y s h).map (fun wy =>
    ((windowCells x s w).map (fun wx => edges (wy * w + wx))).sum)).sum

/-- `edgeCount` of the window: the number of loop iterations. -/
def windowEdgeCount (w h s x y : ℕ) : ℕ :=
  (windowCells y s h).length * (windowCells x s w).length

/-- `strongEdgeCount`: window pixels with `edgeValue > 100`. -/
def windowStrongCount (edges : ℕ → ℕ) (w h s x y : ℕ) : ℕ :=
  ((windowCells y s h).map (fun wy =>
    ((windowCells x s w).map (fun wx => edges (wy * w + wx))).countP
      (fun v => decide (100 < v)))).sum

/-- The score of the window at `(x, y)` with side `s`, as computed by the
inner loops of `findSubjectRegion`:
`score = avgDensity * 0.4 + strongEdgeRatio * 255 * 0.4 + centerWeight * 100 * 0.2`
with `centerWeight = 1 - (distanceFromCenter / maxDistance) * 0.5`;
`base` collects the rational terms (the `1` of `centerWeight` contributes
`1 * 100 * 0.2`) and `rad = d2 / m2` carries the square of the distance
ratio, so that the score value is `base - 10 * sqrt rad`. -/
def windowScore (edges : ℕ → ℕ) (w h s x y : ℕ) : Score :=
  let cnt := windowEdgeCount w h s x y
  let avgDensity : ℚ := if cnt = 0 then 0 else (windowEdgeSum edges w h s x y : ℚ) / cnt
  let strongFrac : ℚ := if cnt = 0 then 0 else (windowStrongCount edges w h s x y : ℚ) / cnt
  let d2 : ℚ := ((x : ℚ) + (s : ℚ) / 2 - (w : ℚ) / 2) ^ 2
      + ((y : ℚ) + (s : ℚ) / 2 - (h : ℚ) / 2) ^ 2
  let m2 : ℚ := ((w : ℚ) / 2) ^ 2 + ((h : ℚ) / 2) ^ 2
  ⟨avgDensity * 0.4 + strongFrac * 255 * 0.4 + 1 * 100 * 0.2, d2 / m2⟩

/-- The region recorded for a winning window: expand by `PADDING_RATIO = 0.1`
on each side, clamping `x, y` at `0` and `width, height` at the raster size
(`Math.max(0, x - Math.floor(s * 0.1))`,
`Math.min(width, Math.floor(s * (1 + 2 * 0.1)))`). -/
def paddedRect (w h s x y : ℕ) : Rect :=
  ⟨max 0 ((x : ℤ) - ⌊(s : ℚ) * 0.1⌋),
   max 0 ((y : ℤ) - ⌊(s : ℚ) * 0.1⌋),
   min (w : ℤ) ⌊(s : ℚ) * (1 + 2 * 0.1)⌋,
   min (h : ℤ) ⌊(s : ℚ) * (1 + 2 * 0.1)⌋⟩

/-- Bit length of `n` with explicit fuel (structural recursion, so the
kernel can evaluate it on literals). -/
def bitLenAux : ℕ → ℕ → ℕ
  | 0, _ => 0
  | fuel + 1, n => if n = 0 then 0 else bitLenAux fuel (n / 2) + 1

/-- Bit length: the unique `L` with `2 ^ (L - 1) ≤ n < 2 ^ L` for `n ≥ 1`. -/
def bitLen (n : ℕ) : ℕ := bitLenAux n n

/-- Decide `2 ^ g ≤ q` for an integer exponent `g`, by clearing
denominators. -/
def qGePow2 (q : ℚ) (g : ℤ) : Bool :=
  if 0 ≤ g then decide ((q.den : ℤ) * 2 ^ g.toNat ≤ q.num)
  else decide ((q.den : ℤ) ≤ q.num * 2 ^ (-g).toNat)

/-- Binade exponent of a positive rational: the unique `e` with
`2 ^ e ≤ q < 2 ^ (e + 1)`. -/
def qExp (q : ℚ) : ℤ :=
  if qGePow2 q ((bitLen q.num.toNat : ℤ) - (bitLen q.den : ℤ)) then
    (bitLen q.num.toNat : ℤ) - (bitLen q.den : ℤ)
  else (bitLen q.num.toNat : ℤ) - (bitLen q.den : ℤ) - 1

/-- Round a rational to the nearest integer, ties to even. -/
def rnde (t : ℚ) : ℤ :=
  if t - ⌊t⌋ < 1 / 2 then ⌊t⌋
  else if 1 / 2 < t - ⌊t⌋ then ⌊t⌋ + 1
  else if ⌊t⌋ % 2 = 0 then ⌊t⌋ else ⌊t⌋ + 1

/-- Round a nonnegative rational to the nearest IEEE-754 binary64 value:
round-to-nearest, ties-to-even, on the grid of spacing `2 ^ (e - 52)`
where `e` is the binade exponent.  (The fallback quantities stay far from
overflow and underflow, so the grid model is the full double semantics
here.) -/
def roundToDouble (q : ℚ) : ℚ :=
  if q ≤ 0 then 0
  else ((rnde (q / (2 : ℚ) ^ (qExp q - 52)) : ℚ)) * (2 : ℚ) ^ (qExp q - 52)

/-- The IEEE-754 binary64 value stored for the literal `0.7`:
`0x1.6666666666666p-1`, which is `7/10 - 1/2 ^ 54.xx` — slightly BELOW
`7/10`. -/
def fl07 : ℚ := 6305039478318694 / 2 ^ 53

/-- The fallback center crop: a square of side
`Math.floor(min(w, h) * 0.7)` centered in the raster
(`Math.floor((width - centerSize) / 2)` for each offset), with each
arithmetic step rounded to binary64 as JavaScript does.  The products
`min(w, h) * fl07` can fall just below an integer where exact arithmetic
meets it (`90 * 0.7 = 62.99999999999999` in doubles), so the explicit
rounding matters: `fallbackRegion 400 90` has side `62`, not `63`.  The
subtraction and the halving are rounded too, one `roundToDouble` per
JavaScript arithmetic operation. -/
def fallbackRegion (w h : ℕ) : Rect :=
  let centerSize : ℚ := roundToDouble (((min w h : ℕ) : ℚ) * fl07)
  let fx : ℚ := roundToDouble (roundToDouble ((w : ℚ) - centerSize) / 2)
  let fy : ℚ := roundToDouble (roundToDouble ((h : ℚ) - centerSize) / 2)
  ⟨⌊fx⌋, ⌊fy⌋, ⌊centerSize⌋, ⌊centerSize⌋⟩

/-- Force the winning region square: `size = min(width, height)`, recenter on
the same center, clamping `x, y` at `0`. -/
def squareRegion (r : Rect) : Rect :=
  let size := min r.width r.height
  let cX : ℚ := (r.x : ℚ) + (r.width : ℚ) / 2
  let cY : ℚ := (r.y : ℚ) + (r.height : ℚ) / 2
  ⟨max 0 ⌊cX - (size : ℚ) / 2⌋, max 0 ⌊cY - (size : ℚ) / 2⌋, size, size⟩

/-- The three window sizes tried: `minWindowSize = min(w,h) * 0.4`,
`maxWindowSize = min(w,h) * 0.8`, and the list
`[floor(min), floor((min + max) / 2), floor(max)]`. -/
def windowSizes (w h : ℕ) : List ℕ :=
  let mn : ℚ := ((min w h : ℕ) : ℚ) * 0.4
  let mx : ℚ := ((min w h : ℕ) : ℚ) * 0.8
  [(⌊mn⌋).toNat, (⌊(mn + mx) / 2⌋).toNat, (⌊mx⌋).toNat]

/-- Scan stride: `step = Math.max(5, Math.floor(windowSize / 8))`. -/
def stepOf (s : ℕ) : ℕ := max 5 (s / 8)

/-- `for (p = 0; p <= limit; p += step)`: the visited positions. -/
def positions (limit step : ℕ) : List ℕ :=
  (List.range (limit / step + 1)).map (fun k => k * step)

/-- The complete scan of `findSubjectRegion`, in iteration order: window
sizes in list order (skipping any size `< 50` or exceeding a raster
dimension), then `y` from `0` to `h - s`, then `x` from `0` to `w - s`,
both with stride `stepOf s`.  Elements are `(s, y, x)`. -/
def scanList (w h : ℕ) : List (ℕ × ℕ × ℕ) :=
  ((windowSizes w h).filter
      (fun s => decide (50 ≤ s) && decide (s ≤ w) && decide (s ≤ h))).flatMap
    (fun s => (positions (h - s) (stepOf s)).flatMap
      (fun y => (positions (w - s) (stepOf s)).map (fun x => (s, y, x))))

/-- One step of the search: `if (score > maxScore) { maxScore = score;
bestRegion = {...}; }`.  State is `(bestRegion, maxScore)`. -/
def gstep (sc : α → Score) (rg : α → Rect) (st : Option Rect × Score) (a : α) :
    Option Rect × Score :=
  if scoreGtB (sc a) st.2 then (some (rg a), sc a) else st

/-- Score of a scan element `(s, y, x)`. -/
def scWin (edges : ℕ → ℕ) (w h : ℕ) (wv : ℕ × ℕ × ℕ) : Score :=
  windowScore edges w h wv.1 wv.2.2 wv.2.1

/-- Recorded (padded) region of a scan element `(s, y, x)`. -/
def rgWin (w h : ℕ) (wv : ℕ × ℕ × ℕ) : Rect :=
  paddedRect w h wv.1 wv.2.2 wv.2.1

/-- The full sliding-window search: fold of `gstep` over the scan, starting
from `bestRegion = null`, `maxScore = 0`. -/
def searchFold (edges : ℕ → ℕ) (w h : ℕ) : Option Rect × Score :=
  (scanList w h).foldl (gstep (scWin edges w h) (rgWin w h)) (none, ⟨0, 0⟩)

/-- `findSubjectRegion(edges, width, height)`: run the search; if no region
was recorded or `maxScore < 50`, return the fallback center crop, else the
square-forced winning region. -/
def findSubjectRegion (edges : ℕ → ℕ) (w h : ℕ) : Rect :=
  match (searchFold edges w h).1 with
  | none => fallbackRegion w h
  | some r =>
    if scoreGtB ⟨50, 0⟩ (searchFold edges w h).2 then fallbackRegion w h
    else squareRegion r

/-- Real score value of a scan element, for stating order properties. -/
noncomputable def scanVal (edges : ℕ → ℕ) (w h : ℕ) (wv : ℕ × ℕ × ℕ) : ℝ :=
  scoreVal (scWin edges w h wv)

/-! ## detectSubjectRegion: analysis scaling and mapping back -/

/-- JavaScript `Math.round`: floor of `q + 1/2` (ties toward positive
infinity). -/
def jsRound (q : ℚ) : ℤ := ⌊q + 1 / 2⌋

/-- `scale = Math.min(analysisSize / width, analysisSize / height)` with
`analysisSize = 400`. -/
def analysisScale (w h : ℕ) : ℚ :=
  min (400 / (w : ℚ)) (400 / (h : ℚ))

/-- `analysisWidth = Math.round(width * scale)`. -/
def analysisW (w h : ℕ) : ℕ := (jsRound ((w : ℚ) * analysisScale w h)).toNat

/-- `analysisHeight = Math.round(height * scale)`. -/
def analysisH (w h : ℕ) : ℕ := (jsRound ((h : ℚ) * analysisScale w h)).toNat

/-- Scale a region found in analysis coordinates back to source coordinates:
each field is `Math.round(field / scale)`. -/
def mapBackRegion (w h : ℕ) (r : Rect) : Rect :=
  ⟨jsRound ((r.x : ℚ) / analysisScale w h), jsRound ((r.y : ℚ) / analysisScale w h),
   jsRound ((r.width : ℚ) / analysisScale w h), jsRound ((r.height : ℚ) / analysisScale w h)⟩

/-- The pure core of `detectSubjectRegion`: given the source dimensions and
the downscaled greyscale analysis raster (the output of the external sharp
`resize/greyscale/normalize` chain), build the edge map, select the subject
region in analysis coordinates, and map it back to source coordinates. -/
def detectRegionPure (w h : ℕ) (raster : ℕ → ℕ) : Rect :=
  mapBackRegion w h
    (findSubjectRegion (edgeFun raster (analysisW w h) (analysisH w h))
      (analysisW w h) (analysisH w h))

/-- `detectSubjectRegion` with its `try/catch`: the whole body runs inside a
`try`, and the `catch` logs the error and returns `null`, so the promise
always resolves (`Except.ok`) and never rejects.  The argument models the
result of reading/decoding/downscaling the image: an error, or the source
dimensions together with the analysis raster. -/
def detectSubjectRegionM (dec : Except String ((ℕ × ℕ) × (ℕ → ℕ))) :
    Except String (Option Rect) :=
  match dec with
  | Except.error _ => Except.ok none
  | Except.ok x => Except.ok (some (detectRegionPure x.1.1 x.1.2 x.2))

/-! ## processImage: crop geometry, output dimensions, filesystem effect -/

/-- The crop `processImage` performs: for a non-square source, the centered
square of side `min(width, height)` (`extract` box); square sources are not
cropped. -/
def processCropBox (w h : ℕ) : Option Rect :=
  if w ≠ h then
    some ⟨((w : ℤ) - (min w h : ℕ)) / 2, ((h : ℤ) - (min w h : ℕ)) / 2,
          ((min w h : ℕ) : ℤ), ((min w h : ℕ) : ℤ)⟩
  else none

/-- Dimension semantics of sharp `resize(tw, th, { fit: cover })`, modelled
from the library contract the spec relies on: cover fit scales and crops to
fill the target box exactly, never padding, so the output dimensions are
exactly the requested ones. -/
def coverResizeDims (tw th _sw _sh : ℕ) : ℕ × ℕ := (tw, th)

/-- Output dimensions of `processImage` on a `w x h` source: optional center
square crop, then `resize(TARGET_SIZE, TARGET_SIZE, { fit: cover })`. -/
def processImageDims (w h : ℕ) : ℕ × ℕ :=
  coverResizeDims TARGET_SIZE TARGET_SIZE
    (if w ≠ h then min w h else w) (if w ≠ h then min w h else h)

/-- Filesystem: a map from paths to file contents (byte lists). -/
def FS : Type := String → Option (List ℕ)

/-- `fs.writeFileSync(p, b)`. -/
def writeFS (fs : FS) (p : String) (b : List ℕ) : FS :=
  fun q => if q = p then some b else fs q

/-- `fs.renameSync(src, dst)`. -/
def renameFS (fs : FS) (src dst : String) : FS :=
  fun q => if q = dst then fs src else if q = src then none else fs q

/-- Filesystem effect of `processImage(inputPath, outputPath)`.
`render` is the external sharp chain (decode, optional extract, cover
resize, JPEG encode at quality 92) producing the output bytes, `none`
meaning any decode/crop/resize/encode failure: all of these happen before
any filesystem write.  `writeOk` tells whether the single
`fs.writeFileSync(outputPath, ...)` succeeds; if it fails it may leave
arbitrary partial content `leftover` at the output path.  Returns
`(success, resulting filesystem)`; on failure the thrown error propagates
to the caller. -/
def processImageFS (render : List ℕ → Option (List ℕ)) (writeOk : Bool)
    (leftover : List ℕ) (fs : FS) (inp outp : String) : Bool × FS :=
  match fs inp with
  | none => (false, fs)
  | some b =>
    match render b with
    | none => (false, fs)
    | some ob =>
      if writeOk then (true, writeFS fs outp ob)
      else (false, writeFS fs outp leftover)

/-- Filesystem effect of `processImageInPlace(imagePath)`: run `processImage`
into `imagePath + ".tmp"`, then `fs.renameSync(tempPath, imagePath)`.  A
failure inside `processImage` propagates before the rename happens. -/
def processImageInPlaceFS (render : List ℕ → Option (List ℕ)) (writeOk : Bool)
    (leftover : List ℕ) (fs : FS) (p : String) : Bool × FS :=
  let res := processImageFS render writeOk leftover fs p (p ++ ".tmp")
  if res.1 then (true, renameFS res.2 (p ++ ".tmp") p) else (false, res.2)

/-! ## Concrete inputs used in counterexamples and witnesses -/

/-- The all-zero edge map. -/
def zeroMap : ℕ → ℕ := fun _ => 0

/-- A 63x63 edge map with a strong square block at `[30, 60] x [30, 60]`
(borders zero, consistent with a Sobel output). -/
def hotMap : ℕ → ℕ := fun i =>
  if 30 ≤ i % 63 ∧ i % 63 ≤ 60 ∧ 30 ≤ i / 63 ∧ i / 63 ≤ 60 then 255 else 0

/-- A 3x3 greyscale raster with a single lit pixel at `(2, 0)`. -/
def img3 : ℕ → ℕ := fun i => if i = 2 then 1 else 0

/-- A tiny concrete filesystem for witnesses. -/
def fsA : FS := fun q => if q = "a" then some [1, 2, 3] else none

/-! ## Spec-side definitions (written from the spec text, for comparison) -/

/-- The window score as the spec words it: `0.4*avgDensity +
0.4*strongEdgeRatio*255 + 0.2*centerWeight*100`, where `avgDensity` is the
mean edge magnitude over the `s x s` window at `(x, y)`, `strongEdgeRatio`
the fraction of window pixels with magnitude strictly above 100, and
`centerWeight = 1 - 0.5 * (distance of window center from image center) /
(distance of image corner from image center)`. -/
noncomputable def specWindowScore (edges : ℕ → ℕ) (w h s x y : ℕ) : ℝ :=
  0.4 * ((((List.range s).map (fun j =>
      ((List.range s).map (fun i => edges ((y + j) * w + (x + i)))).sum)).sum : ℝ)
        / ((s : ℝ) ^ 2))
  + 0.4 * ((((List.range s).map (fun j =>
      ((List.range s).map (fun i => edges ((y + j) * w + (x + i)))).countP
        (fun v => decide (100 < v)))).sum : ℝ) / ((s : ℝ) ^ 2)) * 255
  + 0.2 * (1 - 0.5 *
      (Real.sqrt (((x : ℝ) + (s : ℝ) / 2 - (w : ℝ) / 2) ^ 2
          + ((y : ℝ) + (s : ℝ) / 2 - (h : ℝ) / 2) ^ 2)
        / Real.sqrt (((w : ℝ) / 2) ^ 2 + ((h : ℝ) / 2) ^ 2))) * 100

/-! ## Exactness of the score comparison -/

theorem scoreVal_mk_zero : scoreVal ⟨0, 0⟩ = 0 := by
  unfold scoreVal
  simp [Real.sqrt_zero]

theorem scoreVal_mk_fifty : scoreVal ⟨50, 0⟩ = 50 := by
  unfold scoreVal
  simp [Real.sqrt_zero]

/-- `gtSubSqrt` decides exactly the real comparison `sqrt r1 - sqrt r2 < d`. -/
theorem gtSubSqrt_eq_true_iff (d r1 r2 : ℚ) (h1 : 0 ≤ r1) (h2 : 0 ≤ r2) :
    gtSubSqrt d r1 r2 = true ↔
      Real.sqrt (r1 : ℝ) - Real.sqrt (r2 : ℝ) < (d : ℝ) := by
  have h1R : (0 : ℝ) ≤ (r1 : ℝ) := by exact_mod_cast h1
  have h2R : (0 : ℝ) ≤ (r2 : ℝ) := by exact_mod_cast h2
  have hs1 : (0 : ℝ) ≤ Real.sqrt (r1 : ℝ) := Real.sqrt_nonneg _
  have hs2 : (0 : ℝ) ≤ Real.sqrt (r2 : ℝ) := Real.sqrt_nonneg _
  have hsq1 : Real.sqrt (r1 : ℝ) ^ 2 = (r1 : ℝ) := Real.sq_sqrt h1R
  have hsq2 : Real.sqrt (r2 : ℝ) ^ 2 = (r2 : ℝ) := Real.sq_sqrt h2R
  unfold gtSubSqrt
  by_cases hd : 0 ≤ d
  · have hdR : (0 : ℝ) ≤ (d : ℝ) := by exact_mod_cast hd
    rw [if_pos hd]
    by_cases he : r1 - r2 - d ^ 2 < 0
    · rw [if_pos he]
      refine iff_of_true rfl ?_
      have heR : (r1 : ℝ) - r2 - (d : ℝ) ^ 2 < 0 := by exact_mod_cast he
      have k1 : Real.sqrt (r1 : ℝ) < Real.sqrt ((r2 : ℝ) + (d : ℝ) ^ 2) :=
        Real.sqrt_lt_sqrt h1R (by linarith)
      have k2 : Real.sqrt ((r2 : ℝ) + (d : ℝ) ^ 2) ≤ Real.sqrt (r2 : ℝ) + (d : ℝ) := by
        have hle : (r2 : ℝ) + (d : ℝ) ^ 2 ≤ (Real.sqrt (r2 : ℝ) + (d : ℝ)) ^ 2 := by
          nlinarith [mul_nonneg hs2 hdR]
        calc Real.sqrt ((r2 : ℝ) + (d : ℝ) ^ 2)
            ≤ Real.sqrt ((Real.sqrt (r2 : ℝ) + (d : ℝ)) ^ 2) := Real.sqrt_le_sqrt hle
          _ = Real.sqrt (r2 : ℝ) + (d : ℝ) := Real.sqrt_sq (by linarith)
      linarith
    · rw [if_neg he]
      push_neg at he
      have heR : (0 : ℝ) ≤ (r1 : ℝ) - r2 - (d : ℝ) ^ 2 := by exact_mod_cast he
      rw [decide_eq_true_eq]
      constructor
      · intro hlt
        have hltR : ((r1 : ℝ) - r2 - (d : ℝ) ^ 2) ^ 2 < 4 * (d : ℝ) ^ 2 * r2 := by
          exact_mod_cast hlt
        have k0 : (r1 : ℝ) - r2 - (d : ℝ) ^ 2 < 2 * d * Real.sqrt (r2 : ℝ) := by
          nlinarith [mul_nonneg (mul_nonneg (by norm_num : (0 : ℝ) ≤ 2) hdR) hs2, hsq2]
        have k1 : (r1 : ℝ) < (Real.sqrt (r2 : ℝ) + (d : ℝ)) ^ 2 := by nlinarith [hsq2]
        have k2 : Real.sqrt (r1 : ℝ) < Real.sqrt (r2 : ℝ) + (d : ℝ) := by
          have := Real.sqrt_lt_sqrt h1R k1
          rwa [Real.sqrt_sq (by linarith)] at this
        linarith
      · intro hlt
        have k1 : Real.sqrt (r1 : ℝ) < Real.sqrt (r2 : ℝ) + (d : ℝ) := by linarith
        have k2 : (r1 : ℝ) < (Real.sqrt (r2 : ℝ) + (d : ℝ)) ^ 2 := by
          nlinarith [k1, hs1, hsq1]
        have k3 : (r1 : ℝ) - r2 - (d : ℝ) ^ 2 < 2 * d * Real.sqrt (r2 : ℝ) := by
          nlinarith [hsq2]
        have k4 : ((r1 : ℝ) - r2 - (d : ℝ) ^ 2) ^ 2 < 4 * (d : ℝ) ^ 2 * r2 := by
          nlinarith [heR, k3, hsq2, mul_nonneg (mul_nonneg (by norm_num : (0 : ℝ) ≤ 2) hdR) hs2]
        exact_mod_cast k4
  · rw [if_neg hd]
    push_neg at hd
    have hdR : (d : ℝ) < 0 := by exact_mod_cast hd
    by_cases he : r2 - r1 - d ^ 2 ≤ 0
    · rw [if_pos he]
      refine iff_of_false (by simp) ?_
      have heR : (r2 : ℝ) - r1 - (d : ℝ) ^ 2 ≤ 0 := by exact_mod_cast he
      have k1 : (r2 : ℝ) ≤ (Real.sqrt (r1 : ℝ) - (d : ℝ)) ^ 2 := by
        nlinarith [mul_nonneg hs1 (neg_nonneg.mpr hdR.le), hsq1]
      have k2 : Real.sqrt (r2 : ℝ) ≤ Real.sqrt (r1 : ℝ) - (d : ℝ) := by
        calc Real.sqrt (r2 : ℝ)
            ≤ Real.sqrt ((Real.sqrt (r1 : ℝ) - (d : ℝ)) ^ 2) := Real.sqrt_le_sqrt k1
          _ = Real.sqrt (r1 : ℝ) - (d : ℝ) := Real.sqrt_sq (by linarith)
      exact not_lt.mpr (by linarith)
    · rw [if_neg he]
      push_neg at he
      have heR : (0 : ℝ) < (r2 : ℝ) - r1 - (d : ℝ) ^ 2 := by exact_mod_cast he
      rw [decide_eq_true_eq]
      constructor
      · intro hlt
        have hltR : 4 * (d : ℝ) ^ 2 * r1 < ((r2 : ℝ) - r1 - (d : ℝ) ^ 2) ^ 2 := by
          exact_mod_cast hlt
        have k0 : 2 * (-(d : ℝ)) * Real.sqrt (r1 : ℝ) < (r2 : ℝ) - r1 - (d : ℝ) ^ 2 := by
          nlinarith [mul_nonneg (mul_nonneg (by norm_num : (0 : ℝ) ≤ 2)
            (by linarith : (0 : ℝ) ≤ -(d : ℝ))) hs1, hsq1]
        have k1 : (Real.sqrt (r1 : ℝ) - (d : ℝ)) ^ 2 < (r2 : ℝ) := by nlinarith [hsq1]
        have k2 : Real.sqrt (r1 : ℝ) - (d : ℝ) < Real.sqrt (r2 : ℝ) := by
          have := Real.sqrt_lt_sqrt (sq_nonneg (Real.sqrt (r1 : ℝ) - (d : ℝ))) k1
          rwa [Real.sqrt_sq (by linarith)] at this
        linarith
      · intro hlt
        have k1 : Real.sqrt (r1 : ℝ) - (d : ℝ) < Real.sqrt (r2 : ℝ) := by linarith
        have k2 : (Real.sqrt (r1 : ℝ) - (d : ℝ)) ^ 2 < (r2 : ℝ) := by
          nlinarith [hsq2, hs2, k1, (by linarith : (0 : ℝ) ≤ Real.sqrt (r1 : ℝ) - (d : ℝ))]
        have k3 : 2 * (-(d : ℝ)) * Real.sqrt (r1 : ℝ) < (r2 : ℝ) - r1 - (d : ℝ) ^ 2 := by
          nlinarith [hsq1]
        have k4 : 4 * (d : ℝ) ^ 2 * r1 < ((r2 : ℝ) - r1 - (d : ℝ) ^ 2) ^ 2 := by
          nlinarith [k3, mul_nonneg (mul_nonneg (by norm_num : (0 : ℝ) ≤ 2)
            (by linarith : (0 : ℝ) ≤ -(d : ℝ))) hs1, hsq1]
        exact_mod_cast k4

/-- `scoreGtB` decides exactly the strict comparison of score values. -/
theorem scoreGtB_eq_true_iff (a b : Score) (ha : 0 ≤ a.rad) (hb : 0 ≤ b.rad) :
    scoreGtB a b = true ↔ scoreVal b < scoreVal a := by
  unfold scoreGtB
  rw [gtSubSqrt_eq_true_iff _ _ _ ha hb]
  unfold scoreVal
  have hc : (((a.base - b.base) / 10 : ℚ) : ℝ) = ((a.base : ℝ) - (b.base : ℝ)) / 10 := by
    push_cast
    ring
  rw [hc]
  constructor <;> intro hlt <;> linarith

/-- Any tracked score with rational part at most `20` fails the
`maxScore < 50` test, i.e. `50 > maxScore` holds. -/
theorem scoreGtB_fifty (m : Score) (hb : m.base ≤ 20) (hr : 0 ≤ m.rad) :
    scoreGtB ⟨50, 0⟩ m = true := by
  change gtSubSqrt ((50 - m.base) / 10) 0 m.rad = true
  unfold gtSubSqrt
  have hd : 0 ≤ ((50 : ℚ) - m.base) / 10 := by linarith
  rw [if_pos hd]
  have hd3 : (3 : ℚ) ≤ (50 - m.base) / 10 := by linarith
  have he : (0 : ℚ) - m.rad - ((50 - m.base) / 10) ^ 2 < 0 := by nlinarith
  rw [if_pos he]

/-! ## Window score facts -/

theorem windowScore_base (edges : ℕ → ℕ) (w h s x y : ℕ) :
    (windowScore edges w h s x y).base =
      (if windowEdgeCount w h s x y = 0 then 0
        else (windowEdgeSum edges w h s x y : ℚ) / windowEdgeCount w h s x y) * 0.4 +
      (if windowEdgeCount w h s x y = 0 then 0
        else (windowStrongCount edges w h s x y : ℚ) / windowEdgeCount w h s x y) * 255 * 0.4 +
      1 * 100 * 0.2 := rfl

theorem windowScore_rad (edges : ℕ → ℕ) (w h s x y : ℕ) :
    (windowScore edges w h s x y).rad =
      (((x : ℚ) + (s : ℚ) / 2 - (w : ℚ) / 2) ^ 2
        + ((y : ℚ) + (s : ℚ) / 2 - (h : ℚ) / 2) ^ 2) /
      (((w : ℚ) / 2) ^ 2 + ((h : ℚ) / 2) ^ 2) := rfl

theorem windowScore_base_ge (edges : ℕ → ℕ) (w h s x y : ℕ) :
    20 ≤ (windowScore edges w h s x y).base := by
  rw [windowScore_base]
  have h1 : (0 : ℚ) ≤ (if windowEdgeCount w h s x y = 0 then 0
      else (windowEdgeSum edges w h s x y : ℚ) / windowEdgeCount w h s x y) := by
    split
    · exact le_refl 0
    · positivity
  have h2 : (0 : ℚ) ≤ (if windowEdgeCount w h s x y = 0 then 0
      else (windowStrongCount edges w h s x y : ℚ) / windowEdgeCount w h s x y) := by
    split
    · exact le_refl 0
    · positivity
  nlinarith

theorem windowScore_rad_nonneg (edges : ℕ → ℕ) (w h s x y : ℕ) :
    0 ≤ (windowScore edges w h s x y).rad := by
  rw [windowScore_rad]
  positivity

theorem windowEdgeSum_of_zero (edges : ℕ → ℕ) (hz : ∀ i, edges i = 0) (w h s x y : ℕ) :
    windowEdgeSum edges w h s x y = 0 := by
  unfold windowEdgeSum
  apply List.sum_eq_zero
  intro v hv
  obtain ⟨wy, _, rfl⟩ := List.mem_map.mp hv
  apply List.sum_eq_zero
  intro u hu
  obtain ⟨wx, _, rfl⟩ := List.mem_map.mp hu
  exact hz _

theorem windowStrongCount_of_zero (edges : ℕ → ℕ) (hz : ∀ i, edges i = 0) (w h s x y : ℕ) :
    windowStrongCount edges w h s x y = 0 := by
  unfold windowStrongCount
  apply List.sum_eq_zero
  intro v hv
  obtain ⟨wy, _, rfl⟩ := List.mem_map.mp hv
  rw [List.countP_eq_zero]
  intro u hu
  obtain ⟨wx, _, rfl⟩ := List.mem_map.mp hu
  rw [hz]
  decide

theorem windowScore_base_of_zero (edges : ℕ → ℕ) (hz : ∀ i, edges i = 0) (w h s x y : ℕ) :
    (windowScore edges w h s x y).base = 20 := by
  rw [windowScore_base, windowEdgeSum_of_zero edges hz, windowStrongCount_of_zero edges hz]
  split
  · norm_num
  · norm_num

/-! ## Fold invariants of the sliding-window search -/

theorem foldl_gstep_inv {α : Type} (sc : α → Score) (rg : α → Rect) (P : Score → Prop)
    (l : List α) (st : Option Rect × Score) (hl : ∀ a ∈ l, P (sc a)) (hst : P st.2) :
    P ((l.foldl (gstep sc rg) st).2) := by
  induction l generalizing st with
  | nil => simpa using hst
  | cons a t ih =>
    rw [List.foldl_cons]
    refine ih _ (fun b hb => hl b (List.mem_cons_of_mem a hb)) ?_
    unfold gstep
    by_cases hc : scoreGtB (sc a) st.2 = true
    · simp only [hc, if_true]
      exact hl a (List.mem_cons_self a t)
    · simp only [hc, if_false]
      exact hst

theorem foldl_gstep_shape {α : Type} (sc : α → Score) (rg : α → Rect)
    (l : List α) (st : Option Rect × Score)
    (hst : st.1 = none ∨ ∃ a : α, st.1 = some (rg a)) :
    (l.foldl (gstep sc rg) st).1 = none ∨
      ∃ a : α, (l.foldl (gstep sc rg) st).1 = some (rg a) := by
  induction l generalizing st with
  | nil => simpa using hst
  | cons a t ih =>
    rw [List.foldl_cons]
    apply ih
    unfold gstep
    by_cases hc : scoreGtB (sc a) st.2 = true
    · simp only [hc, if_true]
      exact Or.inr ⟨a, rfl⟩
    · simp only [hc, if_false]
      exact hst

/-- On an everywhere-zero edge map every window scores at most
`20 < 50`, so the search falls through to the center fallback. -/
theorem findSubjectRegion_of_zero (edges : ℕ → ℕ) (w h : ℕ) (hz : ∀ i, edges i = 0) :
    findSubjectRegion edges w h = fallbackRegion w h := by
  have hinv : ((searchFold edges w h).2.base ≤ 20 ∧ 0 ≤ (searchFold edges w h).2.rad) := by
    unfold searchFold
    apply foldl_gstep_inv _ _ (fun sc => sc.base ≤ 20 ∧ 0 ≤ sc.rad)
    · intro a _
      constructor
      · unfold scWin
        rw [windowScore_base_of_zero edges hz]
      · exact windowScore_rad_nonneg edges w h a.1 a.2.2 a.2.1
    · constructor
      · norm_num
      · exact le_refl 0
  unfold findSubjectRegion
  rcases hsf : (searchFold edges w h).1 with _ | r
  · rfl
  · rw [scoreGtB_fifty _ hinv.1 hinv.2]
    rfl

/-! ## Double-rounding lemmas: the model satisfies the bracketing bounds
needed for the region-bound invariants -/

theorem bitLenAux_zero (fuel : ℕ) : bitLenAux fuel 0 = 0 := by
  cases fuel <;> rfl

theorem bitLenAux_spec (fuel : ℕ) : ∀ n : ℕ, n ≤ fuel → 1 ≤ n →
    2 ^ (bitLenAux fuel n - 1) ≤ n ∧ n < 2 ^ bitLenAux fuel n := by
  induction fuel with
  | zero =>
    intro n h1 h2
    omega
  | succ fuel ih =>
    intro n hle h1
    rw [show bitLenAux (fuel + 1) n
        = if n = 0 then 0 else bitLenAux fuel (n / 2) + 1 from rfl,
      if_neg (by omega)]
    by_cases h2 : n = 1
    · subst h2
      rw [show (1 : ℕ) / 2 = 0 from rfl, bitLenAux_zero]
      norm_num
    · obtain ⟨ihl, ihr⟩ := ih (n / 2) (by omega) (by omega)
      have hL1 : 1 ≤ bitLenAux fuel (n / 2) := by
        by_contra hc
        push_neg at hc
        rw [show bitLenAux fuel (n / 2) = 0 by omega, pow_zero] at ihr
        omega
      have e3 : 2 ^ bitLenAux fuel (n / 2)
          = 2 * 2 ^ (bitLenAux fuel (n / 2) - 1) := by
        rw [← pow_succ']
        congr 1
        omega
      have e4 : 2 ^ (bitLenAux fuel (n / 2) + 1)
          = 2 * 2 ^ bitLenAux fuel (n / 2) := by
        rw [pow_succ']
      rw [Nat.add_sub_cancel]
      omega

theorem bitLen_spec (n : ℕ) (h1 : 1 ≤ n) :
    2 ^ (bitLen n - 1) ≤ n ∧ n < 2 ^ bitLen n :=
  bitLenAux_spec n n (le_refl n) h1

theorem qGePow2_eq_true_iff (q : ℚ) (g : ℤ) :
    qGePow2 q g = true ↔ (2 : ℚ) ^ g ≤ q := by
  have hd : (0 : ℚ) < (q.den : ℚ) := by exact_mod_cast q.den_pos
  have hkey : ∀ z : ℚ, z ≤ q ↔ z * (q.den : ℚ) ≤ (q.num : ℚ) := by
    intro z
    rw [← Rat.mul_den_eq_num q]
    exact (mul_le_mul_right hd).symm
  unfold qGePow2
  by_cases hg : (0 : ℤ) ≤ g
  · rw [if_pos hg, decide_eq_true_eq]
    have h2 : (2 : ℚ) ^ g = (2 : ℚ) ^ g.toNat := by
      rw [← zpow_natCast (2 : ℚ) g.toNat]
      congr 1
      omega
    rw [h2, hkey, mul_comm ((2 : ℚ) ^ g.toNat) (q.den : ℚ)]
    constructor <;> intro hle <;> exact_mod_cast hle
  · rw [if_neg hg, decide_eq_true_eq]
    push_neg at hg
    have hp : (0 : ℚ) < (2 : ℚ) ^ (-g).toNat := by positivity
    have h2 : (2 : ℚ) ^ g = ((2 : ℚ) ^ (-g).toNat)⁻¹ := by
      rw [← zpow_natCast (2 : ℚ) (-g).toNat, ← zpow_neg]
      congr 1
      omega
    rw [h2, hkey, inv_mul_le_iff₀ hp, mul_comm ((2 : ℚ) ^ (-g).toNat) (q.num : ℚ)]
    constructor <;> intro hle <;> exact_mod_cast hle

theorem qExp_spec (q : ℚ) (hq : 0 < q) :
    (2 : ℚ) ^ qExp q ≤ q ∧ q < (2 : ℚ) ^ (qExp q + 1) := by
  have hnum : (0 : ℤ) < q.num := Rat.num_pos.mpr hq
  have ha1 : 1 ≤ q.num.toNat := by omega
  have hb1 : 1 ≤ q.den := q.den_pos
  obtain ⟨haL, haU⟩ := bitLen_spec q.num.toNat ha1
  obtain ⟨hbL, hbU⟩ := bitLen_spec q.den hb1
  have hnum_eq : q.num = (q.num.toNat : ℤ) := (Int.toNat_of_nonneg hnum.le).symm
  set La := bitLen q.num.toNat with hLa
  set Lb := bitLen q.den with hLb
  have hLa1 : 1 ≤ La := by
    by_contra hc
    push_neg at hc
    rw [show La = 0 by omega, pow_zero] at haU
    omega
  have hLb1 : 1 ≤ Lb := by
    by_contra hc
    push_neg at hc
    rw [show Lb = 0 by omega, pow_zero] at hbU
    omega
  have hU : qGePow2 q ((La : ℤ) - (Lb : ℤ) + 1) = false := by
    unfold qGePow2
    by_cases hg : (0 : ℤ) ≤ (La : ℤ) - (Lb : ℤ) + 1
    · rw [if_pos hg, decide_eq_false_iff_not]
      have htn : ((La : ℤ) - (Lb : ℤ) + 1).toNat = La + 1 - Lb := by omega
      rw [htn]
      have key : q.num.toNat < q.den * 2 ^ (La + 1 - Lb) := by
        have e1 : 2 ^ (Lb - 1) * 2 ^ (La + 1 - Lb) = 2 ^ La := by
          rw [← pow_add]
          congr 1
          omega
        calc q.num.toNat < 2 ^ La := haU
          _ = 2 ^ (Lb - 1) * 2 ^ (La + 1 - Lb) := e1.symm
          _ ≤ q.den * 2 ^ (La + 1 - Lb) :=
            mul_le_mul_of_nonneg_right hbL (Nat.zero_le _)
      exact not_le.mpr (by rw [hnum_eq]; exact_mod_cast key)
    · rw [if_neg hg, decide_eq_false_iff_not]
      push_neg at hg
      have htn : (-((La : ℤ) - (Lb : ℤ) + 1)).toNat = Lb - La - 1 := by omega
      rw [htn]
      have key : q.num.toNat * 2 ^ (Lb - La - 1) < q.den := by
        have e1 : 2 ^ La * 2 ^ (Lb - La - 1) = 2 ^ (Lb - 1) := by
          rw [← pow_add]
          congr 1
          omega
        calc q.num.toNat * 2 ^ (Lb - La - 1)
            < 2 ^ La * 2 ^ (Lb - La - 1) :=
              mul_lt_mul_of_pos_right haU (by positivity)
          _ = 2 ^ (Lb - 1) := e1
          _ ≤ q.den := hbL
      exact not_le.mpr (by rw [hnum_eq]; exact_mod_cast key)
  have hL : qGePow2 q ((La : ℤ) - (Lb : ℤ) - 1) = true := by
    unfold qGePow2
    by_cases hg : (0 : ℤ) ≤ (La : ℤ) - (Lb : ℤ) - 1
    · rw [if_pos hg, decide_eq_true_eq]
      have htn : ((La : ℤ) - (Lb : ℤ) - 1).toNat = La - Lb - 1 := by omega
      rw [htn]
      have key : q.den * 2 ^ (La - Lb - 1) ≤ q.num.toNat := by
        have e1 : 2 ^ Lb * 2 ^ (La - Lb - 1) = 2 ^ (La - 1) := by
          rw [← pow_add]
          congr 1
          omega
        calc q.den * 2 ^ (La - Lb - 1)
            ≤ 2 ^ Lb * 2 ^ (La - Lb - 1) :=
              mul_le_mul_of_nonneg_right hbU.le (Nat.zero_le _)
          _ = 2 ^ (La - 1) := e1
          _ ≤ q.num.toNat := haL
      rw [hnum_eq]
      exact_mod_cast key
    · rw [if_neg hg, decide_eq_true_eq]
      push_neg at hg
      have htn : (-((La : ℤ) - (Lb : ℤ) - 1)).toNat = Lb - La + 1 := by omega
      rw [htn]
      have key : q.den ≤ q.num.toNat * 2 ^ (Lb - La + 1) := by
        have e1 : 2 ^ (La - 1) * 2 ^ (Lb - La + 1) = 2 ^ Lb := by
          rw [← pow_add]
          congr 1
          omega
        calc q.den ≤ 2 ^ Lb := hbU.le
          _ = 2 ^ (La - 1) * 2 ^ (Lb - La + 1) := e1.symm
          _ ≤ q.num.toNat * 2 ^ (Lb - La + 1) :=
              mul_le_mul_of_nonneg_right haL (Nat.zero_le _)
      rw [hnum_eq]
      exact_mod_cast key
  have hqe : qExp q = if qGePow2 q ((La : ℤ) - (Lb : ℤ)) then (La : ℤ) - (Lb : ℤ)
      else (La : ℤ) - (Lb : ℤ) - 1 := by
    rw [hLa, hLb]
    rfl
  rw [hqe]
  by_cases hge : qGePow2 q ((La : ℤ) - (Lb : ℤ)) = true
  · rw [if_pos hge]
    refine ⟨(qGePow2_eq_true_iff q _).mp hge, ?_⟩
    have hnot : ¬ (2 : ℚ) ^ ((La : ℤ) - (Lb : ℤ) + 1) ≤ q := by
      rw [← qGePow2_eq_true_iff q ((La : ℤ) - (Lb : ℤ) + 1)]
      simp [hU]
    exact not_le.mp hnot
  · rw [if_neg hge]
    refine ⟨(qGePow2_eq_true_iff q _).mp hL, ?_⟩
    have hnot : ¬ (2 : ℚ) ^ ((La : ℤ) - (Lb : ℤ)) ≤ q := by
      rw [← qGePow2_eq_true_iff q ((La : ℤ) - (Lb : ℤ))]
      exact hge
    rw [show (La : ℤ) - (Lb : ℤ) - 1 + 1 = (La : ℤ) - (Lb : ℤ) by ring]
    exact not_le.mp hnot

theorem rnde_nonneg (t : ℚ) (ht : 0 ≤ t) : 0 ≤ rnde t := by
  have h0 : (0 : ℤ) ≤ ⌊t⌋ := Int.floor_nonneg.mpr ht
  unfold rnde
  split
  · exact h0
  · split
    · omega
    · split <;> omega

theorem rnde_le_add_half (t : ℚ) : (rnde t : ℚ) ≤ t + 1 / 2 := by
  have hfl : (⌊t⌋ : ℚ) ≤ t := Int.floor_le t
  unfold rnde
  split
  · linarith
  · rename_i h1
    push_neg at h1
    split
    · push_cast
      linarith
    · split
      · linarith
      · push_cast
        linarith

theorem roundToDouble_nonneg (q : ℚ) : 0 ≤ roundToDouble q := by
  unfold roundToDouble
  split
  · exact le_refl 0
  · rename_i hq
    push_neg at hq
    have hs : (0 : ℚ) < (2 : ℚ) ^ (qExp q - 52) := by positivity
    have ht : 0 ≤ q / (2 : ℚ) ^ (qExp q - 52) := (div_pos hq hs).le
    have hk : (0 : ℚ) ≤ (rnde (q / (2 : ℚ) ^ (qExp q - 52)) : ℚ) := by
      exact_mod_cast rnde_nonneg _ ht
    exact mul_nonneg hk hs.le

theorem roundToDouble_le (q : ℚ) (hq : 0 ≤ q) :
    roundToDouble q ≤ q + q / 2 ^ 53 := by
  unfold roundToDouble
  split
  · rename_i hq0
    rw [le_antisymm hq0 hq]
    norm_num
  · rename_i hq0
    push_neg at hq0
    have hs : (0 : ℚ) < (2 : ℚ) ^ (qExp q - 52) := by positivity
    have h2 := mul_le_mul_of_nonneg_right
      (rnde_le_add_half (q / (2 : ℚ) ^ (qExp q - 52))) hs.le
    have h3 : (q / (2 : ℚ) ^ (qExp q - 52) + 1 / 2) * (2 : ℚ) ^ (qExp q - 52)
        = q + (2 : ℚ) ^ (qExp q - 52) / 2 := by
      rw [add_mul, div_mul_cancel₀ q (ne_of_gt hs)]
      ring
    rw [h3] at h2
    have h4 : (2 : ℚ) ^ (qExp q - 52) * 2 ^ 52 ≤ q := by
      have he : (2 : ℚ) ^ (qExp q - 52) * 2 ^ 52 = (2 : ℚ) ^ qExp q := by
        rw [show ((2 : ℚ) ^ (52 : ℕ)) = (2 : ℚ) ^ ((52 : ℕ) : ℤ)
            from (zpow_natCast (2 : ℚ) 52).symm,
          ← zpow_add₀ (by norm_num : (2 : ℚ) ≠ 0)]
        congr 1
        omega
      rw [he]
      exact (qExp_spec q hq0).1
    have h5 : (2 : ℚ) ^ (qExp q - 52) / 2 ≤ q / 2 ^ 53 := by
      rw [div_le_div_iff₀ (by norm_num) (by norm_num : (0 : ℚ) < 2 ^ 53)]
      calc (2 : ℚ) ^ (qExp q - 52) * 2 ^ 53
          = ((2 : ℚ) ^ (qExp q - 52) * 2 ^ 52) * 2 := by ring
        _ ≤ q * 2 := by linarith
    linarith

/-! ## Region bounds -/

theorem fallbackRegion_bounds (w h : ℕ) :
    0 ≤ (fallbackRegion w h).x ∧ 0 ≤ (fallbackRegion w h).y ∧
    (fallbackRegion w h).width ≤ (w : ℤ) ∧ (fallbackRegion w h).height ≤ (h : ℤ) := by
  have hm0 : (0 : ℚ) ≤ ((min w h : ℕ) : ℚ) := by positivity
  have hf7 : fl07 ≤ 7 / 10 := by norm_num [fl07]
  have hf0 : (0 : ℚ) ≤ fl07 := by norm_num [fl07]
  have hp0 : (0 : ℚ) ≤ ((min w h : ℕ) : ℚ) * fl07 := mul_nonneg hm0 hf0
  have hrle := roundToDouble_le (((min w h : ℕ) : ℚ) * fl07) hp0
  rw [show ((2 : ℚ) ^ (53 : ℕ)) = 9007199254740992 from by norm_num] at hrle
  have hpb : ((min w h : ℕ) : ℚ) * fl07 ≤ ((min w h : ℕ) : ℚ) * (7 / 10) :=
    mul_le_mul_of_nonneg_left hf7 hm0
  have hcsm : roundToDouble (((min w h : ℕ) : ℚ) * fl07) ≤ ((min w h : ℕ) : ℚ) := by
    linarith
  refine ⟨?_, ?_, ?_, ?_⟩
  · exact Int.le_floor.mpr (by exact_mod_cast roundToDouble_nonneg _)
  · exact Int.le_floor.mpr (by exact_mod_cast roundToDouble_nonneg _)
  · calc (fallbackRegion w h).width
        = ⌊roundToDouble (((min w h : ℕ) : ℚ) * fl07)⌋ := rfl
      _ ≤ ⌊((min w h : ℕ) : ℚ)⌋ := Int.floor_le_floor hcsm
      _ = ((min w h : ℕ) : ℤ) := Int.floor_natCast _
      _ ≤ (w : ℤ) := by exact_mod_cast min_le_left w h
  · calc (fallbackRegion w h).height
        = ⌊roundToDouble (((min w h : ℕ) : ℚ) * fl07)⌋ := rfl
      _ ≤ ⌊((min w h : ℕ) : ℚ)⌋ := Int.floor_le_floor hcsm
      _ = ((min w h : ℕ) : ℤ) := Int.floor_natCast _
      _ ≤ (h : ℤ) := by exact_mod_cast min_le_right w h

theorem paddedRect_bounds (w h s x y : ℕ) :
    0 ≤ (paddedRect w h s x y).x ∧ 0 ≤ (paddedRect w h s x y).y ∧
    (paddedRect w h s x y).width ≤ (w : ℤ) ∧ (paddedRect w h s x y).height ≤ (h : ℤ) :=
  ⟨le_max_left 0 _, le_max_left 0 _, min_le_left _ _, min_le_left _ _⟩

theorem squareRegion_bounds (r : Rect) :
    0 ≤ (squareRegion r).x ∧ 0 ≤ (squareRegion r).y ∧
    (squareRegion r).width ≤ r.width ∧ (squareRegion r).height ≤ r.height :=
  ⟨le_max_left 0 _, le_max_left 0 _, min_le_left _ _, min_le_right _ _⟩

/-- Amended invariant (claim C2): the selector clamps each field separately,
yielding `x, y ≥ 0`, `width ≤ W` and `height ≤ H` for any edge map; the
stronger containment `x + width ≤ W`, `y + height ≤ H` fails (see the
counterexample). -/
theorem region_fieldwise_bounds (edges : ℕ → ℕ) (w h : ℕ) :
    0 ≤ (findSubjectRegion edges w h).x ∧ 0 ≤ (findSubjectRegion edges w h).y ∧
    (findSubjectRegion edges w h).width ≤ (w : ℤ) ∧
    (findSubjectRegion edges w h).height ≤ (h : ℤ) := by
  unfold findSubjectRegion
  rcases hsf : (searchFold edges w h).1 with _ | r
  · exact fallbackRegion_bounds w h
  · have hshape := foldl_gstep_shape (scWin edges w h) (rgWin w h)
      (scanList w h) (none, ⟨0, 0⟩) (Or.inl rfl)
    rw [show (scanList w h).foldl (gstep (scWin edges w h) (rgWin w h)) (none, ⟨0, 0⟩)
        = searchFold edges w h from rfl] at hshape
    rcases hshape with hnone | ⟨wv, hsome⟩
    · rw [hnone] at hsf
      exact absurd hsf (by simp)
    · rw [hsome] at hsf
      have hr : r = paddedRect w h wv.1 wv.2.2 wv.2.1 := (Option.some_injective _ hsf).symm
      by_cases hthr : scoreGtB ⟨50, 0⟩ (searchFold edges w h).2 = true
      · simp only [hthr, if_true]
        exact fallbackRegion_bounds w h
      · simp only [hthr, if_false]
        obtain ⟨q1, q2, q3, q4⟩ := squareRegion_bounds r
        obtain ⟨p1, p2, p3, p4⟩ := paddedRect_bounds w h wv.1 wv.2.2 wv.2.1
        exact ⟨q1, q2, le_trans q3 (hr ▸ p3), le_trans q4 (hr ▸ p4)⟩

set_option maxHeartbeats 8000000 in
set_option maxRecDepth 100000 in
unseal Rat.mul Rat.add Rat.sub Rat.inv Rat.ofScientific in
/-- C2 counterexample: on a 63x63 edge map with a strong block in the
lower-right, the winning window at `(12, 12)` of side 50 is padded to
width 60 at `x = 7`, and the returned region sticks out past the
right/bottom edge: `x + width = 67 > 63`. -/
theorem c2_counterexample :
    findSubjectRegion hotMap 63 63 = ⟨7, 7, 60, 60⟩ ∧
    (findSubjectRegion hotMap 63 63).x + (findSubjectRegion hotMap 63 63).width > 63 := by
  decide

/-- C5 (amended): on an edge map that is uniformly `0`, no window reaches
the score threshold of 50, and the selector returns the fallback center
region: the centered square whose side is `Math.floor(min(W, H) * 0.7)`
computed in double precision (one less than `⌊0.7 * min(W, H)⌋` when the
double product falls just below the exact integer). -/
theorem c5_zero_map_fallback (w h : ℕ) :
    findSubjectRegion zeroMap w h = fallbackRegion w h :=
  findSubjectRegion_of_zero zeroMap w h (fun _ => rfl)

set_option maxRecDepth 200000 in
unseal Rat.mul Rat.add Rat.sub Rat.inv Rat.ofScientific in
/-- C5 counterexample: on a reachable, uniformly-zero 400 x 90 edge map the
selector returns the fallback square of side `62`, because in doubles
`90 * 0.7 = 62.99999999999999` and `Math.floor` gives `62` — not the side
`⌊0.7 * min(W, H)⌋ = 63` the original claim asserts. -/
theorem c5_counterexample :
    findSubjectRegion zeroMap 400 90 = ⟨168, 13, 62, 62⟩ ∧
    ⌊((min 400 90 : ℕ) : ℚ) * (7 / 10)⌋ = 63 ∧
    (findSubjectRegion zeroMap 400 90).width ≠ ⌊((min 400 90 : ℕ) : ℚ) * (7 / 10)⌋ := by
  have h1 : findSubjectRegion zeroMap 400 90 = fallbackRegion 400 90 :=
    findSubjectRegion_of_zero zeroMap 400 90 (fun _ => rfl)
  refine ⟨?_, ?_, ?_⟩
  · rw [h1]
    decide
  · decide
  · rw [h1]
    decide

/-- C3: whatever the input dimensions, `processImage` produces exactly a
`TARGET_SIZE x TARGET_SIZE` (500 x 500) raster: the optional center crop
feeds a cover-fit resize to the fixed square target, which never letterboxes. -/
theorem c3_output_is_target_square (w h : ℕ) :
    processImageDims w h = (500, 500) ∧ TARGET_SIZE = 500 :=
  ⟨rfl, rfl⟩

/-! ## Edge map lemmas -/

theorem detectEdges_length (img : ℕ → ℕ) (w h : ℕ) :
    (detectEdges img w h).length = w * h := by
  unfold detectEdges
  simp

theorem detectEdges_getD_lt (img : ℕ → ℕ) (w h i : ℕ) (hi : i < w * h) :
    (detectEdges img w h).getD i 0 =
      if 1 ≤ i % w ∧ i % w + 1 < w ∧ 1 ≤ i / w ∧ i / w + 1 < h then
        min 255 (Nat.sqrt ((sobelG sobelX img w (i % w) (i / w)) ^ 2
          + (sobelG sobelY img w (i % w) (i / w)) ^ 2).toNat)
      else 0 := by
  unfold detectEdges
  rw [List.getD_eq_getElem?_getD, List.getElem?_map, List.getElem?_range hi]
  rfl

theorem detectEdges_getD_ge (img : ℕ → ℕ) (w h i : ℕ) (hi : w * h ≤ i) :
    (detectEdges img w h).getD i 0 = 0 := by
  unfold detectEdges
  rw [List.getD_eq_getElem?_getD, List.getElem?_map, List.getElem?_eq_none (by simpa using hi)]
  rfl

theorem index_decompose (w x y : ℕ) (hx : x < w) :
    (y * w + x) % w = x ∧ (y * w + x) / w = y := by
  have hw : 0 < w := lt_of_le_of_lt (Nat.zero_le x) hx
  constructor
  · rw [Nat.add_comm, Nat.add_mul_mod_self_right, Nat.mod_eq_of_lt hx]
  · rw [Nat.add_comm, Nat.add_mul_div_right x y hw, Nat.div_eq_of_lt hx, Nat.zero_add]

theorem index_lt (w h x y : ℕ) (hx : x < w) (hy : y < h) : y * w + x < w * h :=
  calc y * w + x < y * w + w := by omega
    _ = (y + 1) * w := by ring
    _ ≤ h * w := Nat.mul_le_mul_right w (by omega)
    _ = w * h := Nat.mul_comm h w

theorem sobelG_const (kernel : List ℤ) (c w x y : ℕ) :
    sobelG kernel (fun _ => c) w x y = (c : ℤ) * ((List.range 9).map (fun k => kernel.getD k 0)).sum := by
  unfold sobelG
  simp [List.range_succ]
  ring

theorem edgeFun_const (c w h : ℕ) (i : ℕ) : edgeFun (fun _ => c) w h i = 0 := by
  unfold edgeFun
  rcases Nat.lt_or_ge i (w * h) with hi | hi
  · rw [detectEdges_getD_lt _ _ _ _ hi]
    split
    · rw [sobelG_const, sobelG_const]
      norm_num [sobelX, sobelY, List.range_succ]
    · rfl
  · exact detectEdges_getD_ge _ _ _ _ hi

theorem sobelG_x_expand (img : ℕ → ℕ) (w x y : ℕ) :
    sobelG sobelX img w x y =
      ((img ((y - 1) * w + (x + 1)) : ℤ) + 2 * img (y * w + (x + 1))
        + img ((y + 1) * w + (x + 1)))
      - ((img ((y - 1) * w + (x - 1)) : ℤ) + 2 * img (y * w + (x - 1))
        + img ((y + 1) * w + (x - 1))) := by
  unfold sobelG sobelX
  simp [List.range_succ]
  ring_nf

theorem sobelG_y_expand (img : ℕ → ℕ) (w x y : ℕ) :
    sobelG sobelY img w x y =
      ((img ((y + 1) * w + (x - 1)) : ℤ) + 2 * img ((y + 1) * w + x)
        + img ((y + 1) * w + (x + 1)))
      - ((img ((y - 1) * w + (x - 1)) : ℤ) + 2 * img ((y - 1) * w + x)
        + img ((y - 1) * w + (x + 1))) := by
  unfold sobelG sobelY
  simp [List.range_succ]
  ring_nf

/-- Amended claim C4: the edge map has the dimensions of its raster, border
cells are exactly `0`, every cell is at most `255`, and every interior cell
holds the Sobel magnitude `min(255, sqrt(Gx^2 + Gy^2))` rounded down to an
integer (the `Uint8Array` store truncates the floating-point magnitude);
`Nat.sqrt` is that rounded-down square root. -/
theorem c4_edge_map_shape (img : ℕ → ℕ) (w h : ℕ) :
    (detectEdges img w h).length = w * h ∧
    (∀ x y : ℕ, x < w → y < h → (x = 0 ∨ x + 1 = w ∨ y = 0 ∨ y + 1 = h) →
      (detectEdges img w h).getD (y * w + x) 0 = 0) ∧
    (∀ x y : ℕ, 1 ≤ x → x + 1 < w → 1 ≤ y → y + 1 < h →
      (detectEdges img w h).getD (y * w + x) 0 =
        min 255 (Nat.sqrt ((((img ((y - 1) * w + (x + 1)) : ℤ) + 2 * img (y * w + (x + 1))
            + img ((y + 1) * w + (x + 1)))
          - ((img ((y - 1) * w + (x - 1)) : ℤ) + 2 * img (y * w + (x - 1))
            + img ((y + 1) * w + (x - 1)))) ^ 2 +
          (((img ((y + 1) * w + (x - 1)) : ℤ) + 2 * img ((y + 1) * w + x)
            + img ((y + 1) * w + (x + 1)))
          - ((img ((y - 1) * w + (x - 1)) : ℤ) + 2 * img ((y - 1) * w + x)
            + img ((y - 1) * w + (x + 1)))) ^ 2).toNat)) ∧
    (∀ i : ℕ, (detectEdges img w h).getD i 0 ≤ 255) := by
  refine ⟨detectEdges_length img w h, ?_, ?_, ?_⟩
  · intro x y hx hy hbord
    rw [detectEdges_getD_lt img w h _ (index_lt w h x y hx hy)]
    obtain ⟨hmod, hdiv⟩ := index_decompose w x y hx
    rw [hmod, hdiv, if_neg]
    omega
  · intro x y hx1 hx2 hy1 hy2
    have hx : x < w := by omega
    have hy : y < h := by omega
    rw [detectEdges_getD_lt img w h _ (index_lt w h x y hx hy)]
    obtain ⟨hmod, hdiv⟩ := index_decompose w x y hx
    rw [hmod, hdiv, if_pos (by omega), sobelG_x_expand, sobelG_y_expand]
  · intro i
    rcases Nat.lt_or_ge i (w * h) with hi | hi
    · rw [detectEdges_getD_lt img w h i hi]
      split
      · exact min_le_left 255 _
      · omega
    · rw [detectEdges_getD_ge img w h i hi]
      omega

/-- Witness for the amended C4 theorem at the concrete 3x3 raster `img3`:
its single interior cell has `Gx = 1`, `Gy = -1`, so the stored magnitude is
`Nat.sqrt 2 = 1`, and a border cell is `0`. -/
theorem c4_edge_map_shape_witness :
    (detectEdges img3 3 3).length = 9 ∧
    (detectEdges img3 3 3).getD 0 0 = 0 ∧
    (detectEdges img3 3 3).getD 4 0 = 1 := by
  obtain ⟨h1, h2, h3, _⟩ := c4_edge_map_shape img3 3 3
  refine ⟨h1, ?_, ?_⟩
  · have hb := h2 0 0 (by decide) (by decide) (Or.inl rfl)
    simpa using hb
  · have hsq2 : Nat.sqrt 2 = 1 := (Nat.eq_sqrt.mpr (by norm_num)).symm
    have hc := h3 1 1 (by decide) (by decide) (by decide) (by decide)
    rw [show 1 * 3 + 1 = 4 from rfl] at hc
    rw [hc]
    norm_num [img3]
    rw [show Int.toNat 2 = 2 from rfl, hsq2]
    decide

/-- C4 counterexample: the claim as stated says the interior cell holds
`min(255, sqrt(Gx^2 + Gy^2))` with the exact square root; at `img3` the cell
stores `1` while `Gx = 1`, `Gy = -1` give `min(255, sqrt 2) = sqrt 2`, which
is not `1`. -/
theorem c4_counterexample :
    ¬ (((detectEdges img3 3 3).getD 4 0 : ℝ) =
      min 255 (Real.sqrt (((sobelG sobelX img3 3 1 1 : ℤ) : ℝ) ^ 2
        + ((sobelG sobelY img3 3 1 1 : ℤ) : ℝ) ^ 2))) := by
  have hgx : sobelG sobelX img3 3 1 1 = 1 := by decide
  have hgy : sobelG sobelY img3 3 1 1 = -1 := by decide
  have hsq2 : Nat.sqrt 2 = 1 := (Nat.eq_sqrt.mpr (by norm_num)).symm
  have hv : (detectEdges img3 3 3).getD 4 0 = 1 := by
    rw [detectEdges_getD_lt img3 3 3 4 (by norm_num)]
    rw [show (4 : ℕ) % 3 = 1 from rfl, show (4 : ℕ) / 3 = 1 from rfl]
    rw [if_pos (by norm_num), hgx, hgy]
    norm_num
    rw [show Int.toNat 2 = 2 from rfl, hsq2]
    decide
  rw [hgx, hgy, hv]
  have h2 : ((1 : ℤ) : ℝ) ^ 2 + ((-1 : ℤ) : ℝ) ^ 2 = 2 := by norm_num
  rw [h2]
  have hs255 : Real.sqrt 2 ≤ 255 := by
    calc Real.sqrt 2 ≤ Real.sqrt (255 ^ 2) := Real.sqrt_le_sqrt (by norm_num)
      _ = 255 := Real.sqrt_sq (by norm_num)
  rw [min_eq_right hs255]
  have hgt : (1 : ℝ) < Real.sqrt 2 := by
    have h12 := Real.sqrt_lt_sqrt (by norm_num : (0 : ℝ) ≤ 1) (by norm_num : (1 : ℝ) < 2)
    rwa [Real.sqrt_one] at h12
  intro hcontra
  rw [Nat.cast_one] at hcontra
  rw [← hcontra] at hgt
  exact lt_irrefl _ hgt

/-! ## processImage vs. the detector (claim C1) -/

set_option maxRecDepth 200000 in
unseal Rat.mul Rat.add Rat.sub Rat.inv Rat.ofScientific in
/-- C1 evidence: `processImage` center-crops, it never consults the region
selector.  On a 1200x800 source whose analysis raster is flat (all-zero edge
map), `processImage` extracts the centered square `(200, 0) 800x800`, while
the subject-detection result mapped back to source coordinates is the
fallback square `(318, 120) 558x558`; the crop box is not the detection
result. -/
theorem c1_crop_box_vs_detector :
    processCropBox 1200 800 = some ⟨200, 0, 800, 800⟩ ∧
    detectRegionPure 1200 800 (fun _ => 0) = ⟨318, 120, 558, 558⟩ ∧
    processCropBox 1200 800 ≠ some (detectRegionPure 1200 800 (fun _ => 0)) := by
  have haw : analysisW 1200 800 = 400 := by decide
  have hah : analysisH 1200 800 = 267 := by decide
  have h2 : detectRegionPure 1200 800 (fun _ => 0) = ⟨318, 120, 558, 558⟩ := by
    unfold detectRegionPure
    rw [haw, hah]
    rw [findSubjectRegion_of_zero _ _ _ (fun i => edgeFun_const 0 400 267 i)]
    decide
  refine ⟨by decide, h2, ?_⟩
  rw [h2]
  decide

/-! ## Error handling and filesystem effects (claims C8, C9, C10) -/

/-- Corrected claim C9: on a decode failure, `detectSubjectRegion` does not
propagate the error; the `catch` block swallows it and the call completes
successfully with `null`. -/
theorem detect_returns_null_on_decode_error (e : String) :
    detectSubjectRegionM (Except.error e) = Except.ok none := rfl

/-- C9 counterexample: at a concrete unreadable input, `detectSubjectRegion`
resolves successfully with `null` (`Except.ok none`), so no error reaches the
caller, contradicting the claim that a decode error is propagated. -/
theorem c9_counterexample :
    detectSubjectRegionM (Except.error "unreadable input") = Except.ok none ∧
    (detectSubjectRegionM (Except.error "unreadable input")).isOk = true :=
  ⟨rfl, rfl⟩

theorem tmp_path_ne (p : String) : p ++ ".tmp" ≠ p := by
  intro hcontra
  have hlen := congrArg String.length hcontra
  rw [String.length_append] at hlen
  have h4 : String.length ".tmp" = 4 := rfl
  omega

/-- C8: if any stage of the in-place pipeline fails before the final rename
(missing/unreadable input, any sharp decode/crop/resize/encode failure, or
the write of the temporary file itself), the input path still holds its
original bytes: every write before the rename targets only `p ++ ".tmp"`. -/
theorem inPlace_failure_preserves_original (render : List ℕ → Option (List ℕ))
    (writeOk : Bool) (leftover : List ℕ) (fs : FS) (p : String)
    (hfail : (processImageInPlaceFS render writeOk leftover fs p).1 = false) :
    (processImageInPlaceFS render writeOk leftover fs p).2 p = fs p := by
  unfold processImageInPlaceFS processImageFS at hfail ⊢
  rcases hin : fs p with _ | b
  · simp [hin]
  · rcases hrender : render b with _ | ob
    · simp [hin, hrender]
    · rcases writeOk with _ | _
      · simp [hin, hrender, writeFS, Ne.symm (tmp_path_ne p)]
      · simp [hin, hrender] at hfail

/-- Witness for C8 at a concrete filesystem and a failing render stage. -/
theorem inPlace_failure_preserves_original_witness :
    (processImageInPlaceFS (fun _ => none) true [] fsA "a").1 = false ∧
    (processImageInPlaceFS (fun _ => none) true [] fsA "a").2 "a" = fsA "a" :=
  ⟨rfl, inPlace_failure_preserves_original (fun _ => none) true [] fsA "a" rfl⟩

/-- C10: `processImage(inputPath, outputPath)` writes only `outputPath`;
with distinct paths the input file is untouched whether the call succeeds
or fails. -/
theorem processImage_writes_only_output (render : List ℕ → Option (List ℕ))
    (writeOk : Bool) (leftover : List ℕ) (fs : FS) (inp outp : String)
    (hne : inp ≠ outp) :
    (processImageFS render writeOk leftover fs inp outp).2 inp = fs inp ∧
    ∀ q : String, q ≠ outp →
      (processImageFS render writeOk leftover fs inp outp).2 q = fs q := by
  have hall : ∀ q : String, q ≠ outp →
      (processImageFS render writeOk leftover fs inp outp).2 q = fs q := by
    intro q hq
    unfold processImageFS
    rcases hin : fs inp with _ | b
    · simp [hin]
    · rcases hrender : render b with _ | ob
      · simp [hin, hrender]
      · rcases writeOk with _ | _
        · simp [hin, hrender, writeFS, hq]
        · simp [hin, hrender, writeFS, hq]
  exact ⟨hall inp hne, hall⟩

/-- Witness for C10 at concrete distinct paths. -/
theorem processImage_writes_only_output_witness :
    "a" ≠ "b" ∧ (processImageFS some true [] fsA "a" "b").2 "a" = fsA "a" :=
  ⟨by decide, (processImage_writes_only_output some true [] fsA "a" "b" (by decide)).1⟩

/-! ## The window score formula (claim C6) -/

/-- C6: for every window the selector evaluates (side `s`, top-left
`(x, y)`, in range), the exact value of the computed score is the spec's
`0.4*avgDensity + 0.4*strongEdgeRatio*255 + 0.2*centerWeight*100` with
`avgDensity` the mean magnitude over the `s*s` window, `strongEdgeRatio` the
fraction of pixels with magnitude above 100, and `centerWeight` the
center-distance weight. -/
theorem window_score_matches_spec (edges : ℕ → ℕ) (w h s x y : ℕ)
    (hs : 0 < s) (hx : x + s ≤ w) (hy : y + s ≤ h) :
    scoreVal (windowScore edges w h s x y) = specWindowScore edges w h s x y := by
  have hcy : windowCells y s h = (List.range s).map (fun j => y + j) := by
    unfold windowCells
    rw [min_eq_left hy, Nat.add_sub_cancel_left]
    exact List.range'_eq_map_range y s
  have hcx : windowCells x s w = (List.range s).map (fun i => x + i) := by
    unfold windowCells
    rw [min_eq_left hx, Nat.add_sub_cancel_left]
    exact List.range'_eq_map_range x s
  have hsum : windowEdgeSum edges w h s x y =
      ((List.range s).map (fun j =>
        ((List.range s).map (fun i => edges ((y + j) * w + (x + i)))).sum)).sum := by
    unfold windowEdgeSum
    rw [hcy, hcx]
    simp [List.map_map, Function.comp_def]
  have hstrong : windowStrongCount edges w h s x y =
      ((List.range s).map (fun j =>
        ((List.range s).map (fun i => edges ((y + j) * w + (x + i)))).countP
          (fun v => decide (100 < v)))).sum := by
    unfold windowStrongCount
    rw [hcy, hcx]
    simp [List.map_map, Function.comp_def]
  have hcnt : windowEdgeCount w h s x y = s * s := by
    unfold windowEdgeCount
    rw [hcy, hcx]
    simp
  have hcnt' : ¬ windowEdgeCount w h s x y = 0 := by
    rw [hcnt]
    simp only [Nat.mul_eq_zero]
    omega
  unfold scoreVal
  rw [windowScore_base, windowScore_rad, if_neg hcnt', if_neg hcnt', hsum, hstrong, hcnt]
  unfold specWindowScore
  set T : ℕ := ((List.range s).map (fun j =>
    ((List.range s).map (fun i => edges ((y + j) * w + (x + i)))).sum)).sum with hT
  set S : ℕ := ((List.range s).map (fun j =>
    ((List.range s).map (fun i => edges ((y + j) * w + (x + i)))).countP
      (fun v => decide (100 < v)))).sum with hS
  have hd2 : (0 : ℝ) ≤ ((x : ℝ) + (s : ℝ) / 2 - (w : ℝ) / 2) ^ 2
      + ((y : ℝ) + (s : ℝ) / 2 - (h : ℝ) / 2) ^ 2 := by positivity
  push_cast
  rw [Real.sqrt_div hd2]
  have hs' : (0 : ℝ) < (s : ℝ) := by exact_mod_cast hs
  field_simp
  ring

/-- Witness for C6 at the smallest window. -/
theorem window_score_matches_spec_witness :
    0 < 1 ∧ scoreVal (windowScore zeroMap 1 1 1 0 0) = specWindowScore zeroMap 1 1 1 0 0 :=
  ⟨Nat.one_pos, window_score_matches_spec zeroMap 1 1 1 0 0 (by decide) (by decide) (by decide)⟩

/-! ## First-found-maximum semantics of the search (claim C7) -/

/-- Folding `gstep` (strict `>` update) over any list either keeps the
initial empty state (when no element scores positively), or ends at the
first element attaining the maximum score: everything scanned before it
scores strictly less, everything after it at most as much. -/
theorem foldl_gstep_first_max {α : Type} (sc : α → Score) (rg : α → Rect)
    (hrad : ∀ a : α, 0 ≤ (sc a).rad) (l : List α) :
    (l.foldl (gstep sc rg) (none, ⟨0, 0⟩) = (none, ⟨0, 0⟩) ∧
      ∀ b ∈ l, scoreVal (sc b) ≤ 0) ∨
    (∃ pre post : List α, ∃ win : α,
      l = pre ++ win :: post ∧
      l.foldl (gstep sc rg) (none, ⟨0, 0⟩) = (some (rg win), sc win) ∧
      0 < scoreVal (sc win) ∧
      (∀ b ∈ pre, scoreVal (sc b) < scoreVal (sc win)) ∧
      (∀ b ∈ post, scoreVal (sc b) ≤ scoreVal (sc win))) := by
  induction l using List.reverseRecOn with
  | nil => exact Or.inl ⟨rfl, by simp⟩
  | append_singleton t a ih =>
    have hfold : (t ++ [a]).foldl (gstep sc rg) (none, ⟨0, 0⟩) =
        gstep sc rg (t.foldl (gstep sc rg) (none, ⟨0, 0⟩)) a := by
      rw [List.foldl_append]
      rfl
    rcases ih with ⟨hst, hall⟩ | ⟨pre, post, win, happ, hst, hpos, hbef, haft⟩
    · by_cases hgt : scoreGtB (sc a) (⟨0, 0⟩ : Score) = true
      · right
        have hv : 0 < scoreVal (sc a) := by
          have hv0 := (scoreGtB_eq_true_iff (sc a) ⟨0, 0⟩ (hrad a) (le_refl 0)).mp hgt
          rwa [scoreVal_mk_zero] at hv0
        refine ⟨t, [], a, by simp, ?_, hv, ?_, by simp⟩
        · rw [hfold, hst]
          simp [gstep, hgt]
        · intro b hb
          exact lt_of_le_of_lt (hall b hb) hv
      · left
        have hv : scoreVal (sc a) ≤ 0 := by
          by_contra hc
          push_neg at hc
          have hiff := scoreGtB_eq_true_iff (sc a) ⟨0, 0⟩ (hrad a) (le_refl 0)
          rw [scoreVal_mk_zero] at hiff
          exact hgt (hiff.mpr hc)
        refine ⟨?_, ?_⟩
        · rw [hfold, hst]
          simp [gstep, hgt]
        · intro b hb
          rcases List.mem_append.mp hb with h1 | h2
          · exact hall b h1
          · rw [List.mem_singleton.mp h2]
            exact hv
    · by_cases hgt : scoreGtB (sc a) (sc win) = true
      · right
        have hv : scoreVal (sc win) < scoreVal (sc a) :=
          (scoreGtB_eq_true_iff _ _ (hrad a) (hrad win)).mp hgt
        refine ⟨t, [], a, by simp, ?_, lt_trans hpos hv, ?_, by simp⟩
        · rw [hfold, hst]
          simp [gstep, hgt]
        · intro b hb
          rw [happ] at hb
          rcases List.mem_append.mp hb with h1 | h2
          · exact lt_trans (hbef b h1) hv
          · rcases List.mem_cons.mp h2 with h3 | h4
            · rw [h3]
              exact hv
            · exact lt_of_le_of_lt (haft b h4) hv
      · right
        have hv : scoreVal (sc a) ≤ scoreVal (sc win) := by
          by_contra hc
          push_neg at hc
          exact hgt ((scoreGtB_eq_true_iff _ _ (hrad a) (hrad win)).mpr hc)
        refine ⟨pre, post ++ [a], win, ?_, ?_, hpos, hbef, ?_⟩
        · rw [happ]
          simp
        · rw [hfold, hst]
          simp [gstep, hgt]
        · intro b hb
          rcases List.mem_append.mp hb with h1 | h2
          · exact haft b h1
          · rw [List.mem_singleton.mp h2]
            exact hv

theorem mem_positions (limit step p : ℕ) (hp : p ∈ positions limit step) : p ≤ limit := by
  unfold positions at hp
  obtain ⟨k, hk, rfl⟩ := List.mem_map.mp hp
  rw [List.mem_range] at hk
  have hk' : k ≤ limit / step := by omega
  calc k * step ≤ (limit / step) * step := Nat.mul_le_mul_right step hk'
    _ ≤ limit := Nat.div_mul_le_self limit step

theorem mem_scanList (w h : ℕ) (wv : ℕ × ℕ × ℕ) (hm : wv ∈ scanList w h) :
    50 ≤ wv.1 ∧ wv.1 ≤ w ∧ wv.1 ≤ h ∧ wv.2.1 ≤ h - wv.1 ∧ wv.2.2 ≤ w - wv.1 := by
  unfold scanList at hm
  rw [List.mem_flatMap] at hm
  obtain ⟨s, hs, hm2⟩ := hm
  rw [List.mem_filter] at hs
  obtain ⟨hs_mem, hs_cond⟩ := hs
  rw [List.mem_flatMap] at hm2
  obtain ⟨y, hy, hm3⟩ := hm2
  obtain ⟨x, hx, rfl⟩ := List.mem_map.mp hm3
  simp only [Bool.and_eq_true, decide_eq_true_eq] at hs_cond
  exact ⟨hs_cond.1.1, hs_cond.1.2, hs_cond.2, mem_positions _ _ _ hy, mem_positions _ _ _ hx⟩

/-- Every window the selector actually scans has strictly positive score
value: its rational part is at least 20 and the center-distance ratio is at
most 1, so the value is at least 10. -/
theorem scanVal_pos (edges : ℕ → ℕ) (w h : ℕ) (wv : ℕ × ℕ × ℕ)
    (hm : wv ∈ scanList w h) : 0 < scanVal edges w h wv := by
  obtain ⟨h50, hsw, hsh, hyb, hxb⟩ := mem_scanList w h wv hm
  unfold scanVal scWin scoreVal
  have hbase := windowScore_base_ge edges w h wv.1 wv.2.2 wv.2.1
  have hradnn := windowScore_rad_nonneg edges w h wv.1 wv.2.2 wv.2.1
  have hxw : wv.2.2 + wv.1 ≤ w := by omega
  have hyh : wv.2.1 + wv.1 ≤ h := by omega
  have hs0 : (0 : ℚ) ≤ (wv.1 : ℚ) := by positivity
  have hrad1 : (windowScore edges w h wv.1 wv.2.2 wv.2.1).rad ≤ 1 := by
    rw [windowScore_rad]
    apply div_le_one_of_le₀
    · have hxle : (wv.2.2 : ℚ) + (wv.1 : ℚ) ≤ (w : ℚ) := by exact_mod_cast hxw
      have hyle : (wv.2.1 : ℚ) + (wv.1 : ℚ) ≤ (h : ℚ) := by exact_mod_cast hyh
      have hx0 : (0 : ℚ) ≤ (wv.2.2 : ℚ) := by positivity
      have hy0 : (0 : ℚ) ≤ (wv.2.1 : ℚ) := by positivity
      have t1 : ((wv.2.2 : ℚ) + (wv.1 : ℚ) / 2 - (w : ℚ) / 2) ^ 2 ≤ ((w : ℚ) / 2) ^ 2 := by
        apply sq_le_sq'
        · linarith
        · linarith
      have t2 : ((wv.2.1 : ℚ) + (wv.1 : ℚ) / 2 - (h : ℚ) / 2) ^ 2 ≤ ((h : ℚ) / 2) ^ 2 := by
        apply sq_le_sq'
        · linarith
        · linarith
      linarith
    · positivity
  have hsqrt : Real.sqrt ((windowScore edges w h wv.1 wv.2.2 wv.2.1).rad : ℝ) ≤ 1 := by
    rw [show (1 : ℝ) = Real.sqrt 1 by rw [Real.sqrt_one]]
    apply Real.sqrt_le_sqrt
    exact_mod_cast hrad1
  have hb20 : (20 : ℝ) ≤ ((windowScore edges w h wv.1 wv.2.2 wv.2.1).base : ℝ) := by
    exact_mod_cast hbase
  linarith

set_option maxHeartbeats 800000 in
/-- C7: the selector tracks a single best window with a strict `>` test, so
the recorded winner is the first window in scan order that attains the
maximum score: the scan decomposes as `pre ++ win :: post` with every
earlier window scoring strictly less and every later one at most as much.
The scan order itself tries the (nondecreasing) window sizes in list order,
then `y`, then `x`; the whole selection is a pure function of the edge map. -/
theorem search_first_found_max (edges : ℕ → ℕ) (w h : ℕ) (hne : scanList w h ≠ []) :
    (windowSizes w h).Sorted (· ≤ ·) ∧
    ∃ pre post : List (ℕ × ℕ × ℕ), ∃ win : ℕ × ℕ × ℕ,
      scanList w h = pre ++ win :: post ∧
      searchFold edges w h =
        (some (paddedRect w h win.1 win.2.2 win.2.1),
         windowScore edges w h win.1 win.2.2 win.2.1) ∧
      (∀ b ∈ pre, scanVal edges w h b < scanVal edges w h win) ∧
      (∀ b ∈ post, scanVal edges w h b ≤ scanVal edges w h win) := by
  constructor
  · have hm0 : (0 : ℚ) ≤ ((min w h : ℕ) : ℚ) := by positivity
    have h1 : (⌊((min w h : ℕ) : ℚ) * 0.4⌋).toNat ≤
        (⌊(((min w h : ℕ) : ℚ) * 0.4 + ((min w h : ℕ) : ℚ) * 0.8) / 2⌋).toNat := by
      apply Int.toNat_le_toNat
      apply Int.floor_le_floor
      nlinarith
    have h2 : (⌊(((min w h : ℕ) : ℚ) * 0.4 + ((min w h : ℕ) : ℚ) * 0.8) / 2⌋).toNat ≤
        (⌊((min w h : ℕ) : ℚ) * 0.8⌋).toNat := by
      apply Int.toNat_le_toNat
      apply Int.floor_le_floor
      nlinarith
    unfold windowSizes
    apply List.sorted_cons.mpr
    refine ⟨?_, ?_⟩
    · intro b hb
      rcases List.mem_cons.mp hb with hb1 | hb2
      · rw [hb1]
        exact h1
      · rw [List.mem_singleton.mp hb2]
        exact le_trans h1 h2
    · apply List.sorted_cons.mpr
      refine ⟨?_, ?_⟩
      · intro b hb
        rw [List.mem_singleton.mp hb]
        exact h2
      · exact List.sorted_singleton _
  · have hres := foldl_gstep_first_max (scWin edges w h) (rgWin w h)
      (fun wv => windowScore_rad_nonneg edges w h wv.1 wv.2.2 wv.2.1)
      (scanList w h)
    rcases hres with ⟨_, hall⟩ | ⟨pre, post, win, happ, hst, _, hbef, haft⟩
    · obtain ⟨b, hb⟩ := List.exists_mem_of_ne_nil _ hne
      exact absurd (hall b hb) (not_le.mpr (scanVal_pos edges w h b hb))
    · exact ⟨pre, post, win, happ, hst, hbef, haft⟩

unseal Rat.mul Rat.add Rat.sub Rat.inv Rat.ofScientific in
/-- Witness for C7 on a concrete nonempty scan. -/
theorem search_first_found_max_witness :
    scanList 63 63 ≠ [] ∧ (windowSizes 63 63).Sorted (· ≤ ·) :=
  ⟨by decide, (search_first_found_max zeroMap 63 63 (by decide)).1⟩

end POSImage
